import Mathlib

/-!
# Verification of `SecureChatService` (src/frontend-v2/src/service/SecureChatService.ts)

Shallow embedding of the end-to-end encrypted chat session service.  Byte
sequences (`Uint8Array`) are modelled as `List Nat` with each element a byte
value; strings are modelled as their list of Unicode scalar values
(`List Nat`), with UTF-8 encoding/decoding (`TextEncoder`/`TextDecoder`,
`sodium.from_string`/`sodium.to_string`) modelled concretely below.

External library primitives (libsodium, `@stablelib/chacha`) are not part of
the repository; they are modelled as follows:
* ChaCha20 (`streamXOR` of `@stablelib/chacha`, 8-byte nonce with a 64-bit
  block counter starting at 0) and the IETF ChaCha20-Poly1305 AEAD
  construction of libsodium are implemented concretely (quarter rounds,
  10 double rounds, little-endian serialisation, Poly1305 over 2^130 - 5).
* Ed25519 detached signatures are idealised: a signature over a 32-byte
  message is the injective pair `message ++ publicKey` (64 bytes), and
  verification checks that equation, with libsodium's length validation.
  This keeps the exact call interface (verify returns a Bool, throws only on
  malformed sizes) while idealising "the signature validates".
* X25519 `crypto_scalarmult` is idealised as exponentiation with base point
  `9` in the multiplicative monoid modulo `2^255 - 19`, which captures the
  Diffie-Hellman commutativity `K = aB = bA` the code relies on.

Randomness (`sodium.randombytes_buf`, key generation seeds) is passed in
explicitly as parameters; thrown `Error`s become an explicit error type with
one constructor per distinct failure condition in the code.
-/

namespace SecureChat

/-- Little-endian interpretation of a byte list as a natural number. -/
def leNum (bs : List Nat) : Nat := bs.foldr (fun b acc => b + 256 * acc) 0

/-- `n`-byte little-endian serialisation of a natural number (truncating). -/
def leBytes : Nat → Nat → List Nat
  | 0, _ => []
  | n + 1, x => x % 256 :: leBytes n (x / 256)

/-- Group a byte list into little-endian 32-bit words (dropping a ragged tail). -/
def bytesToWords : List Nat → List Nat
  | b0 :: b1 :: b2 :: b3 :: rest =>
      (b0 + 256 * (b1 + 256 * (b2 + 256 * b3))) :: bytesToWords rest
  | _ => []

/-- Little-endian serialisation of one 32-bit word into 4 bytes. -/
def wordToBytes (w : Nat) : List Nat :=
  [w % 256, w / 256 % 256, w / 65536 % 256, w / 16777216 % 256]

/-- Little-endian serialisation of a word list into bytes. -/
def wordsToBytes : List Nat → List Nat
  | [] => []
  | w :: ws => wordToBytes w ++ wordsToBytes ws

/-- 32-bit left rotation. -/
def rotl32 (x n : Nat) : Nat :=
  ((x <<< n) ||| (x >>> (32 - n))) % 4294967296

/-- ChaCha20 quarter round acting on positions `ia ib ic id` of the state. -/
def quarterRound (s : List Nat) (ia ib ic id : Nat) : List Nat :=
  let a := s.getD ia 0
  let b := s.getD ib 0
  let c := s.getD ic 0
  let d := s.getD id 0
  let a := (a + b) % 4294967296
  let d := rotl32 (d ^^^ a) 16
  let c := (c + d) % 4294967296
  let b := rotl32 (b ^^^ c) 12
  let a := (a + b) % 4294967296
  let d := rotl32 (d ^^^ a) 8
  let c := (c + d) % 4294967296
  let b := rotl32 (b ^^^ c) 7
  ((((((((s.set ia a).set ib b).set ic c).set id d)))))

/-- One ChaCha20 double round: four column rounds then four diagonal rounds. -/
def doubleRound (s : List Nat) : List Nat :=
  let s := quarterRound s 0 4 8 12
  let s := quarterRound s 1 5 9 13
  let s := quarterRound s 2 6 10 14
  let s := quarterRound s 3 7 11 15
  let s := quarterRound s 0 5 10 15
  let s := quarterRound s 1 6 11 12
  let s := quarterRound s 2 7 8 13
  let s := quarterRound s 3 4 9 14
  s

/-- The four ChaCha20 constant words ("expand 32-byte k"). -/
def chachaConsts : List Nat := [1634760805, 857760878, 2036477234, 1797285236]

/-- One 64-byte ChaCha20 keystream block.  The last four state words are the
block counter (little-endian, filling `16 - nonce.length` bytes) followed by
the nonce, exactly as `@stablelib/chacha` lays out an 8-byte nonce (64-bit
counter) and as the IETF variant lays out a 12-byte nonce (32-bit counter). -/
def chachaBlock (key nonce : List Nat) (counter : Nat) : List Nat :=
  let initial := chachaConsts ++
    (bytesToWords key ++ List.replicate 8 0).take 8 ++
    (bytesToWords (leBytes (16 - nonce.length) counter ++ nonce) ++
      List.replicate 4 0).take 4
  let final := doubleRound^[10] initial
  wordsToBytes (List.zipWith (fun a b => (a + b) % 4294967296) final initial)

/-- `k` consecutive ChaCha20 keystream blocks starting at block `counter`. -/
def ksBlocks (key nonce : List Nat) (counter k : Nat) : List Nat :=
  match k with
  | 0 => []
  | k + 1 => chachaBlock key nonce counter ++ ksBlocks key nonce (counter + 1) k

/-- `n` bytes of ChaCha20 keystream with the block counter starting at 0
(the `@stablelib/chacha` `streamXOR` stream). -/
def keyStream (key nonce : List Nat) (n : Nat) : List Nat :=
  (ksBlocks key nonce 0 ((n + 63) / 64)).take n

/-- `n` bytes of ChaCha20 keystream with the block counter starting at 1
(the IETF AEAD construction reserves block 0 for the Poly1305 key). -/
def ietfKeyStream (key nonce : List Nat) (n : Nat) : List Nat :=
  (ksBlocks key nonce 1 ((n + 63) / 64)).take n

/-- `streamXOR` of `@stablelib/chacha`: XOR the source with the keystream. -/
def streamXOR (key nonce src : List Nat) : List Nat :=
  List.zipWith Nat.xor src (keyStream key nonce src.length)

/-- Poly1305 accumulator loop over 16-byte chunks (each chunk is read
little-endian with a high `1` bit appended). -/
def polyLoop (r acc : Nat) (msg : List Nat) : Nat :=
  match msg with
  | [] => acc
  | b :: rest =>
      let chunk := (b :: rest).take 16
      let n := leNum chunk + 256 ^ chunk.length
      polyLoop r ((acc + n) * r % (2 ^ 130 - 5)) ((b :: rest).drop 16)
termination_by msg.length
decreasing_by simp only [List.length_drop, List.length_cons]; omega

/-- Number of zero bytes padding `n` bytes up to a 16-byte boundary. -/
def pad16 (n : Nat) : Nat := (16 - n % 16) % 16

/-- The Poly1305 tag the IETF AEAD construction computes over a ciphertext
with empty associated data: the Poly1305 key is the first 32 bytes of ChaCha20
block 0, the MAC input is `ct ++ pad ++ le64(0) ++ le64(|ct|)`. -/
def polyTag (key nonce ct : List Nat) : List Nat :=
  let polyKey := (chachaBlock key nonce 0).take 32
  let r := leNum (polyKey.take 16) &&& 0x0ffffffc0ffffffc0ffffffc0fffffff
  let s := leNum (polyKey.drop 16)
  let msg := ct ++ List.replicate (pad16 ct.length) 0 ++ leBytes 8 0 ++ leBytes 8 ct.length
  leBytes 16 ((polyLoop r 0 msg + s) % 2 ^ 128)

/-- A Unicode scalar value: what each element of a (well-formed) string is. -/
def ValidScalar (c : Nat) : Prop := c < 0xD800 ∨ (0xE000 ≤ c ∧ c < 0x110000)

instance (c : Nat) : Decidable (ValidScalar c) :=
  inferInstanceAs (Decidable (c < 0xD800 ∨ (0xE000 ≤ c ∧ c < 0x110000)))

/-- UTF-8 encoding of one Unicode scalar value (`TextEncoder` /
`sodium.from_string`), written with division and remainder by powers of 64
(equivalent to the usual shift-and-mask phrasing). -/
def utf8EncodeChar (c : Nat) : List Nat :=
  if c < 0x80 then [c]
  else if c < 0x800 then [0xC0 + c / 64, 0x80 + c % 64]
  else if c < 0x10000 then [0xE0 + c / 4096, 0x80 + c / 64 % 64, 0x80 + c % 64]
  else [0xF0 + c / 262144, 0x80 + c / 4096 % 64, 0x80 + c / 64 % 64, 0x80 + c % 64]

/-- UTF-8 encoding of a string (given as its list of scalar values). -/
def utf8Encode (s : List Nat) : List Nat := (s.map utf8EncodeChar).flatten

/-- One step of strict UTF-8 decoding: given a lead byte and the following
bytes, produce the decoded scalar value and the remaining bytes, or `none`
for a stray or missing continuation byte, an overlong form, a surrogate, or
a value above `0x10FFFF`. -/
def utf8DecodeStep (b : Nat) (rest : List Nat) : Option (Nat × List Nat) :=
  if b < 0x80 then some (b, rest)
  else if b < 0xC2 then none
  else if b < 0xE0 then
    match rest with
    | b1 :: rest2 =>
      if 0x80 ≤ b1 ∧ b1 < 0xC0 then
        some ((b - 0xC0) * 64 + (b1 - 0x80), rest2)
      else none
    | _ => none
  else if b < 0xF0 then
    match rest with
    | b1 :: b2 :: rest2 =>
      let c := (b - 0xE0) * 4096 + (b1 - 0x80) * 64 + (b2 - 0x80)
      if (0x80 ≤ b1 ∧ b1 < 0xC0) ∧ (0x80 ≤ b2 ∧ b2 < 0xC0) ∧
          0x800 ≤ c ∧ (c < 0xD800 ∨ 0xE000 ≤ c) then
        some (c, rest2)
      else none
    | _ => none
  else if b < 0xF5 then
    match rest with
    | b1 :: b2 :: b3 :: rest2 =>
      let c := (b - 0xF0) * 262144 + (b1 - 0x80) * 4096 + (b2 - 0x80) * 64 + (b3 - 0x80)
      if (0x80 ≤ b1 ∧ b1 < 0xC0) ∧ (0x80 ≤ b2 ∧ b2 < 0xC0) ∧
          (0x80 ≤ b3 ∧ b3 < 0xC0) ∧ 0x10000 ≤ c ∧ c < 0x110000 then
        some (c, rest2)
      else none
    | _ => none
  else none

theorem utf8DecodeStep_length (b : Nat) (rest : List Nat) (c : Nat) (rest2 : List Nat)
    (h : utf8DecodeStep b rest = some (c, rest2)) : rest2.length ≤ rest.length := by
  unfold utf8DecodeStep at h
  split_ifs at h
  · simp only [Option.some.injEq, Prod.mk.injEq] at h
    rw [← h.2]
  · split at h
    · split_ifs at h
      simp only [Option.some.injEq, Prod.mk.injEq] at h
      rw [← h.2]
      simp
    · exact absurd h (by simp)
  · split at h
    · dsimp only at h
      split_ifs at h
      simp only [Option.some.injEq, Prod.mk.injEq] at h
      rw [← h.2]
      simp
      omega
    · exact absurd h (by simp)
  · split at h
    · dsimp only at h
      split_ifs at h
      simp only [Option.some.injEq, Prod.mk.injEq] at h
      rw [← h.2]
      simp
      omega
    · exact absurd h (by simp)

/-- Strict UTF-8 decoding (`TextDecoder` / `sodium.to_string`) of a byte
sequence into a list of Unicode scalar values; `none` models the decode
error thrown on invalid input. -/
def utf8Decode (bs : List Nat) : Option (List Nat) :=
  match bs with
  | [] => some []
  | b :: rest =>
    match h : utf8DecodeStep b rest with
    | none => none
    | some (c, rest2) => (utf8Decode rest2).map (c :: ·)
termination_by bs.length
decreasing_by
  simp only [List.length_cons]
  exact Nat.lt_succ_of_le (utf8DecodeStep_length _ _ _ _ h)

/-- Value of one hexadecimal digit; `sodium_hex2bin` accepts both cases. -/
def hexDigitVal (c : Char) : Option Nat :=
  if '0' ≤ c ∧ c ≤ '9' then some (c.toNat - 48)
  else if 'a' ≤ c ∧ c ≤ 'f' then some (c.toNat - 87)
  else if 'A' ≤ c ∧ c ≤ 'F' then some (c.toNat - 55)
  else none

/-- The hex digits of one byte, lowercase (`sodium.to_hex`). -/
def byteToHex (b : Nat) : List Char :=
  [(Nat.digitChar (b / 16 % 16)), (Nat.digitChar (b % 16))]

/-- `SecureChatService.uint8ArrayToHex`: `sodium.to_hex`. -/
def uint8ArrayToHex (bytes : List Nat) : List Char :=
  (bytes.map byteToHex).flatten

/-- Errors thrown by the service; one constructor per distinct failure
condition (each corresponds to a distinct `Error` message in the code or in
the underlying library, so callers can tell them apart). -/
inductive ChatError where
  /-- `Error` thrown when keys were never generated (init not called). -/
  | uninitialized
  /-- `Error` thrown when no shared secret has been computed yet. -/
  | noSharedSecret
  /-- libsodium decryption failure: the Poly1305 tag did not verify. -/
  | authFailure
  /-- libsodium input-validation failure: wrong-length key/nonce, bad hex,
  or invalid UTF-8 in a decoded plaintext. -/
  | malformedInput
deriving DecidableEq

/-- `SecureChatService.hexToUint8Array`: `sodium.from_hex`, which fails on
odd-length input or any non-hex character instead of truncating. -/
def hexToUint8Array : List Char → Except ChatError (List Nat)
  | [] => .ok []
  | [_] => .error .malformedInput
  | c1 :: c2 :: rest =>
    match hexDigitVal c1, hexDigitVal c2 with
    | some h, some l => (hexToUint8Array rest).map (fun t => (16 * h + l) :: t)
    | _, _ => .error .malformedInput

/-- A libsodium key pair (`sodium.KeyPair`, byte lists). -/
structure KeyPair where
  publicKey : List Nat
  privateKey : List Nat
deriving DecidableEq

/-- Idealised `sodium.crypto_sign_detached`: an Ed25519 detached signature.
The 64-byte Ed25519 secret key is `seed ++ publicKey`, and the idealised
signature over a 32-byte message is the injective pair
`message ++ publicKey` (64 bytes): a deterministic function of the message
and the key, which a verifier holding the public key can check. -/
def crypto_sign_detached (message privateKey : List Nat) : List Nat :=
  message ++ privateKey.drop 32

/-- Idealised `sodium.crypto_sign_verify_detached`: validates input sizes
(signature 64 bytes, public key 32 bytes) as libsodium does — throwing
(`.error`) on malformed sizes — and otherwise returns a boolean verdict,
true exactly when the signature is the genuine one for this message under
this public key. -/
def crypto_sign_verify_detached (signature message publicKey : List Nat) :
    Except ChatError Bool :=
  if signature.length ≠ 64 then .error .malformedInput
  else if publicKey.length ≠ 32 then .error .malformedInput
  else .ok (decide (signature = message ++ publicKey))

/-- Idealised `sodium.crypto_sign_keypair`: the public key is an injective
function of the random seed; the secret key is `seed ++ publicKey` as in
libsodium's Ed25519 layout. -/
def crypto_sign_keypair (seed : List Nat) : KeyPair :=
  { publicKey := seed.reverse, privateKey := seed ++ seed.reverse }

/-- The Curve25519 prime `2^255 - 19`. -/
def p25519 : Nat := 2 ^ 255 - 19

/-- Idealised `sodium.crypto_scalarmult` (X25519): scalar multiplication on
Curve25519 is modelled as exponentiation modulo `p25519` of the peer point
(read little-endian) by the own scalar, re-serialised to 32 bytes.  This
keeps the shape `scalarmult(a, B) = B^a` with the commutativity
`(g^a)^b = (g^b)^a` the Diffie-Hellman exchange relies on. -/
def crypto_scalarmult (scalar point : List Nat) : List Nat :=
  leBytes 32 (leNum point ^ leNum scalar % p25519)

/-- The X25519 base point `u = 9`, serialised. -/
def basePoint : List Nat := leBytes 32 9

/-- Idealised `sodium.crypto_box_keypair`, generated from a random 32-byte
scalar seed: the public key is `scalarmult(seed, basePoint)`. -/
def crypto_box_keypair (seed : List Nat) : KeyPair :=
  { publicKey := crypto_scalarmult seed basePoint, privateKey := seed }

/-- `crypto_aead_chacha20poly1305_ietf_encrypt` with empty associated data:
ChaCha20 keystream from block 1 XORed with the plaintext, followed by the
16-byte Poly1305 tag.  Length validation of key (32) and nonce (12) models
the wrapper's input checks. -/
def crypto_aead_chacha20poly1305_ietf_encrypt (plaintext nonce key : List Nat) :
    Except ChatError (List Nat) :=
  if key.length ≠ 32 ∨ nonce.length ≠ 12 then .error .malformedInput
  else
    let ct := List.zipWith Nat.xor plaintext (ietfKeyStream key nonce plaintext.length)
    .ok (ct ++ polyTag key nonce ct)

/-- `crypto_aead_chacha20poly1305_ietf_decrypt` with empty associated data:
validates key/nonce lengths (malformed input), then verifies the trailing
Poly1305 tag, failing with a decryption (authentication) error when the tag
does not match or the ciphertext is shorter than one tag. -/
def crypto_aead_chacha20poly1305_ietf_decrypt (ciphertext nonce key : List Nat) :
    Except ChatError (List Nat) :=
  if key.length ≠ 32 ∨ nonce.length ≠ 12 then .error .malformedInput
  else if ciphertext.length < 16 then .error .authFailure
  else
    let ct := ciphertext.take (ciphertext.length - 16)
    let tag := ciphertext.drop (ciphertext.length - 16)
    if tag = polyTag key nonce ct then
      .ok (List.zipWith Nat.xor ct (ietfKeyStream key nonce ct.length))
    else .error .authFailure

/-- The fields of a `SecureChatService` instance. -/
structure ServiceState where
  _ed25519 : Option KeyPair
  _x25519 : Option KeyPair
  _sharedKey : Option (List Nat)
  _isReady : Bool
deriving DecidableEq

/-- The state built by the constructor: no keys, no shared key, not ready. -/
def initialState : ServiceState :=
  { _ed25519 := none, _x25519 := none, _sharedKey := none, _isReady := false }

/-- `_fixedNonce = new Uint8Array(8).fill(0)`: eight zero bytes. -/
def _fixedNonce : List Nat := List.replicate 8 0

/-- `init()`: no-op when already ready, otherwise generates both key pairs
(from the explicit random seeds) and sets the readiness flag. -/
def init (st : ServiceState) (edSeed xSeed : List Nat) : ServiceState :=
  if st._isReady then st
  else
    { _ed25519 := some (crypto_sign_keypair edSeed),
      _x25519 := some (crypto_box_keypair xSeed),
      _sharedKey := st._sharedKey,
      _isReady := true }

/-- `get ed25519PublicKey`: throws when `_ed25519` is unset. -/
def ed25519PublicKey (st : ServiceState) : Except ChatError (List Nat) :=
  match st._ed25519 with
  | none => .error .uninitialized
  | some kp => .ok kp.publicKey

/-- `get x25519PublicKey`: throws when `_x25519` is unset. -/
def x25519PublicKey (st : ServiceState) : Except ChatError (List Nat) :=
  match st._x25519 with
  | none => .error .uninitialized
  | some kp => .ok kp.publicKey

/-- `signDHPublicKey()`: sign the own X25519 public key with the Ed25519
private key; throws when either key pair is unset. -/
def signDHPublicKey (st : ServiceState) : Except ChatError (List Nat) :=
  match st._ed25519, st._x25519 with
  | some ed, some x => .ok (crypto_sign_detached x.publicKey ed.privateKey)
  | _, _ => .error .uninitialized

/-- `computeSharedKey(peerPublicKey)`: X25519 scalar multiplication of the
own private key with the peer public key; stores and returns the result.
Throws when `_x25519` is unset. -/
def computeSharedKey (st : ServiceState) (peerPublicKey : List Nat) :
    Except ChatError (ServiceState × List Nat) :=
  match st._x25519 with
  | none => .error .uninitialized
  | some kp =>
      let k := crypto_scalarmult kp.privateKey peerPublicKey
      .ok ({ st with _sharedKey := some k }, k)

/-- `encryptAEAD(message)`: requires a shared key; encrypts the UTF-8 bytes
of the message under a fresh 12-byte random nonce (passed explicitly) and
returns the `(nonce, ciphertext)` envelope. -/
def encryptAEAD (st : ServiceState) (message : List Nat) (nonce : List Nat) :
    Except ChatError (List Nat × List Nat) :=
  match st._sharedKey with
  | none => .error .noSharedSecret
  | some key =>
    match crypto_aead_chacha20poly1305_ietf_encrypt (utf8Encode message) nonce key with
    | .error e => .error e
    | .ok ct => .ok (nonce, ct)

/-- `decryptAEAD(ciphertext, nonce)`: requires a shared key; AEAD-decrypts
and decodes the plaintext bytes as UTF-8. -/
def decryptAEAD (st : ServiceState) (ciphertext nonce : List Nat) :
    Except ChatError (List Nat) :=
  match st._sharedKey with
  | none => .error .noSharedSecret
  | some key =>
    match crypto_aead_chacha20poly1305_ietf_decrypt ciphertext nonce key with
    | .error e => .error e
    | .ok pt =>
      match utf8Decode pt with
      | none => .error .malformedInput
      | some s => .ok s

/-- `encryptRaw(message)`: requires a shared key; ChaCha20-XORs the UTF-8
bytes of the message under a fresh 8-byte random nonce (passed explicitly)
and returns the `(nonce, ciphertext)` envelope.  No authentication. -/
def encryptRaw (st : ServiceState) (message : List Nat) (nonce : List Nat) :
    Except ChatError (List Nat × List Nat) :=
  match st._sharedKey with
  | none => .error .noSharedSecret
  | some key => .ok (nonce, streamXOR key nonce (utf8Encode message))

/-- `decryptRaw(ciphertext, nonce)`: requires a shared key; applies the same
ChaCha20 XOR stream and decodes the result as UTF-8. -/
def decryptRaw (st : ServiceState) (ciphertext nonce : List Nat) :
    Except ChatError (List Nat) :=
  match st._sharedKey with
  | none => .error .noSharedSecret
  | some key =>
    match utf8Decode (streamXOR key nonce ciphertext) with
    | none => .error .malformedInput
    | some s => .ok s

/-- `encryptRawFixedNonce(message)`: requires a shared key; ChaCha20 XOR
under the constant `_fixedNonce`, bare ciphertext output. -/
def encryptRawFixedNonce (st : ServiceState) (message : List Nat) :
    Except ChatError (List Nat) :=
  match st._sharedKey with
  | none => .error .noSharedSecret
  | some key => .ok (streamXOR key _fixedNonce (utf8Encode message))

/-- `decryptRawFixedNonce(ciphertext)`: requires a shared key; same XOR
stream under the constant `_fixedNonce`, UTF-8 decode of the result. -/
def decryptRawFixedNonce (st : ServiceState) (ciphertext : List Nat) :
    Except ChatError (List Nat) :=
  match st._sharedKey with
  | none => .error .noSharedSecret
  | some key =>
    match utf8Decode (streamXOR key _fixedNonce ciphertext) with
    | none => .error .malformedInput
    | some s => .ok s

/-- `exportPublicIdentity()`: bundle of identity public key, DH public key
and the signature over the DH public key; throws when uninitialised. -/
def exportPublicIdentity (st : ServiceState) :
    Except ChatError (List Nat × List Nat × List Nat) :=
  match st._ed25519, st._x25519 with
  | some ed, some x =>
      .ok (ed.publicKey, x.publicKey, crypto_sign_detached x.publicKey ed.privateKey)
  | _, _ => .error .uninitialized

/-- Static `verifyDHSignature(dhPublicKey, signature, ed25519PublicKey)`:
delegates to `crypto_sign_verify_detached(signature, dhPublicKey, key)`. -/
def verifyDHSignature (dhPublicKey signature ed25519PubKey : List Nat) :
    Except ChatError Bool :=
  crypto_sign_verify_detached signature dhPublicKey ed25519PubKey

/-! ## Length and serialisation lemmas -/

theorem leBytes_length (n x : Nat) : (leBytes n x).length = n := by
  induction n generalizing x with
  | zero => rfl
  | succ n ih => simp [leBytes, ih]

theorem leNum_leBytes (n x : Nat) (h : x < 256 ^ n) : leNum (leBytes n x) = x := by
  induction n generalizing x with
  | zero => simp [leBytes, leNum] at h ⊢; omega
  | succ n ih =>
    have h2 : x / 256 < 256 ^ n := by
      rw [pow_succ, Nat.mul_comm] at h
      exact Nat.div_lt_of_lt_mul h
    have := ih (x / 256) h2
    simp only [leBytes, leNum, List.foldr] at this ⊢
    omega

theorem leBytes_mem_lt (n x b : Nat) (h : b ∈ leBytes n x) : b < 256 := by
  induction n generalizing x with
  | zero => simp [leBytes] at h
  | succ n ih =>
    simp only [leBytes, List.mem_cons] at h
    rcases h with h | h
    · omega
    · exact ih _ h

theorem wordsToBytes_length (ws : List Nat) : (wordsToBytes ws).length = 4 * ws.length := by
  induction ws with
  | nil => rfl
  | cons w ws ih => simp [wordsToBytes, wordToBytes, ih]; omega

theorem quarterRound_length (s : List Nat) (ia ib ic id : Nat) :
    (quarterRound s ia ib ic id).length = s.length := by
  simp [quarterRound]

theorem doubleRound_length (s : List Nat) : (doubleRound s).length = s.length := by
  simp [doubleRound, quarterRound_length]

theorem doubleRound_iterate_length (n : Nat) (s : List Nat) :
    (doubleRound^[n] s).length = s.length := by
  induction n generalizing s with
  | zero => rfl
  | succ n ih => rw [Function.iterate_succ_apply, ih, doubleRound_length]

theorem chachaBlock_length (key nonce : List Nat) (c : Nat) :
    (chachaBlock key nonce c).length = 64 := by
  simp only [chachaBlock]
  rw [wordsToBytes_length, List.length_zipWith, doubleRound_iterate_length]
  simp [chachaConsts]

theorem ksBlocks_length (key nonce : List Nat) (c k : Nat) :
    (ksBlocks key nonce c k).length = 64 * k := by
  induction k generalizing c with
  | zero => rfl
  | succ k ih => simp [ksBlocks, chachaBlock_length, ih]; omega

theorem keyStream_length (key nonce : List Nat) (n : Nat) :
    (keyStream key nonce n).length = n := by
  simp [keyStream, ksBlocks_length, List.length_take]
  omega

theorem ietfKeyStream_length (key nonce : List Nat) (n : Nat) :
    (ietfKeyStream key nonce n).length = n := by
  simp [ietfKeyStream, ksBlocks_length, List.length_take]
  omega

theorem streamXOR_length (key nonce src : List Nat) :
    (streamXOR key nonce src).length = src.length := by
  simp [streamXOR, List.length_zipWith, keyStream_length]

theorem polyTag_length (key nonce ct : List Nat) :
    (polyTag key nonce ct).length = 16 := by
  simp [polyTag, leBytes_length]

/-! ## XOR involution -/

theorem zipWith_xor_xor (l ks : List Nat) (h : ks.length = l.length) :
    List.zipWith Nat.xor (List.zipWith Nat.xor l ks) ks = l := by
  induction l generalizing ks with
  | nil => simp
  | cons a l ih =>
    cases ks with
    | nil => simp at h
    | cons k ks =>
      simp only [List.zipWith, List.cons.injEq]
      refine ⟨?_, ih ks (by simpa using h)⟩
      exact (by rw [Nat.xor_assoc, Nat.xor_self, Nat.xor_zero] : a ^^^ k ^^^ k = a)

theorem streamXOR_streamXOR (key nonce src : List Nat) :
    streamXOR key nonce (streamXOR key nonce src) = src := by
  unfold streamXOR
  rw [show (List.zipWith Nat.xor src (keyStream key nonce src.length)).length
      = src.length from by simp [List.length_zipWith, keyStream_length]]
  exact zipWith_xor_xor src _ (by simp [keyStream_length])

/-! ## UTF-8 round trip -/

theorem utf8Decode_nil : utf8Decode [] = some [] := by
  rw [utf8Decode]

theorem utf8Decode_cons_some (b : Nat) (rest : List Nat) (c : Nat) (rest2 : List Nat)
    (h : utf8DecodeStep b rest = some (c, rest2)) :
    utf8Decode (b :: rest) = (utf8Decode rest2).map (c :: ·) := by
  rw [utf8Decode]
  split
  · next heq => rw [h] at heq; cases heq
  · next c' rest2' heq =>
      have h2 := h.symm.trans heq
      simp only [Option.some.injEq, Prod.mk.injEq] at h2
      rw [h2.1, h2.2]

theorem utf8Decode_encodeChar (c : Nat) (hv : ValidScalar c) (bs : List Nat) :
    utf8Decode (utf8EncodeChar c ++ bs) = (utf8Decode bs).map (c :: ·) := by
  have hv' : c < 0xD800 ∨ (0xE000 ≤ c ∧ c < 0x110000) := hv
  by_cases h1 : c < 0x80
  · have he : utf8EncodeChar c = [c] := by rw [utf8EncodeChar, if_pos h1]
    have hs : utf8DecodeStep c bs = some (c, bs) := by
      simp only [utf8DecodeStep]
      rw [if_pos h1]
    rw [he, List.cons_append, List.nil_append]
    exact utf8Decode_cons_some _ _ _ _ hs
  · by_cases h2 : c < 0x800
    · have he : utf8EncodeChar c = [0xC0 + c / 64, 0x80 + c % 64] := by
        rw [utf8EncodeChar, if_neg h1, if_pos h2]
      have hs : utf8DecodeStep (0xC0 + c / 64) ((0x80 + c % 64) :: bs) = some (c, bs) := by
        simp only [utf8DecodeStep]
        rw [if_neg (by omega), if_neg (by omega), if_pos (by omega), if_pos (by omega)]
        have hval : (0xC0 + c / 64 - 0xC0) * 64 + (0x80 + c % 64 - 0x80) = c := by omega
        rw [hval]
      rw [he, List.cons_append, List.cons_append, List.nil_append]
      exact utf8Decode_cons_some _ _ _ _ hs
    · by_cases h3 : c < 0x10000
      · have he : utf8EncodeChar c = [0xE0 + c / 4096, 0x80 + c / 64 % 64, 0x80 + c % 64] := by
          rw [utf8EncodeChar, if_neg h1, if_neg h2, if_pos h3]
        have hs : utf8DecodeStep (0xE0 + c / 4096)
            ((0x80 + c / 64 % 64) :: (0x80 + c % 64) :: bs) = some (c, bs) := by
          simp only [utf8DecodeStep]
          rw [if_neg (by omega), if_neg (by omega), if_neg (by omega), if_pos (by omega),
            if_pos (by omega)]
          have hval : (0xE0 + c / 4096 - 0xE0) * 4096 + (0x80 + c / 64 % 64 - 0x80) * 64 +
              (0x80 + c % 64 - 0x80) = c := by omega
          rw [hval]
        rw [he, List.cons_append, List.cons_append, List.cons_append, List.nil_append]
        exact utf8Decode_cons_some _ _ _ _ hs
      · have h4 : c < 0x110000 := by omega
        have he : utf8EncodeChar c =
            [0xF0 + c / 262144, 0x80 + c / 4096 % 64, 0x80 + c / 64 % 64, 0x80 + c % 64] := by
          rw [utf8EncodeChar, if_neg h1, if_neg h2, if_neg h3]
        have hs : utf8DecodeStep (0xF0 + c / 262144)
            ((0x80 + c / 4096 % 64) :: (0x80 + c / 64 % 64) :: (0x80 + c % 64) :: bs) =
            some (c, bs) := by
          simp only [utf8DecodeStep]
          rw [if_neg (by omega), if_neg (by omega), if_neg (by omega), if_neg (by omega),
            if_pos (by omega), if_pos (by omega)]
          have hval : (0xF0 + c / 262144 - 0xF0) * 262144 + (0x80 + c / 4096 % 64 - 0x80) * 4096 +
              (0x80 + c / 64 % 64 - 0x80) * 64 + (0x80 + c % 64 - 0x80) = c := by omega
          rw [hval]
        rw [he, List.cons_append, List.cons_append, List.cons_append, List.cons_append,
          List.nil_append]
        exact utf8Decode_cons_some _ _ _ _ hs

theorem utf8Decode_utf8Encode (s : List Nat) (h : ∀ c ∈ s, ValidScalar c) :
    utf8Decode (utf8Encode s) = some s := by
  induction s with
  | nil => rw [show utf8Encode [] = [] from rfl, utf8Decode_nil]
  | cons c s ih =>
    have hsplit : utf8Encode (c :: s) = utf8EncodeChar c ++ utf8Encode s := by
      simp [utf8Encode]
    rw [hsplit, utf8Decode_encodeChar c (h c (by simp)) _,
      ih (fun x hx => h x (by simp [hx]))]
    rfl

/-! ## AEAD seal/open round trip -/

theorem aead_encrypt_eq (key nonce pt : List Nat) (hk : key.length = 32)
    (hn : nonce.length = 12) :
    crypto_aead_chacha20poly1305_ietf_encrypt pt nonce key =
      .ok (List.zipWith Nat.xor pt (ietfKeyStream key nonce pt.length) ++
        polyTag key nonce (List.zipWith Nat.xor pt (ietfKeyStream key nonce pt.length))) := by
  simp only [crypto_aead_chacha20poly1305_ietf_encrypt]
  rw [if_neg (by simp [hk, hn])]

theorem aead_decrypt_seal (key nonce pt : List Nat) (hk : key.length = 32)
    (hn : nonce.length = 12) :
    crypto_aead_chacha20poly1305_ietf_decrypt
      (List.zipWith Nat.xor pt (ietfKeyStream key nonce pt.length) ++
        polyTag key nonce (List.zipWith Nat.xor pt (ietfKeyStream key nonce pt.length)))
      nonce key = .ok pt := by
  have hctlen : (List.zipWith Nat.xor pt (ietfKeyStream key nonce pt.length)).length
      = pt.length := by
    simp [List.length_zipWith, ietfKeyStream_length]
  simp only [crypto_aead_chacha20poly1305_ietf_decrypt]
  rw [if_neg (by simp [hk, hn])]
  have hlen : (List.zipWith Nat.xor pt (ietfKeyStream key nonce pt.length) ++
      polyTag key nonce (List.zipWith Nat.xor pt (ietfKeyStream key nonce pt.length))).length
      = pt.length + 16 := by
    simp [List.length_append, polyTag_length, hctlen]
  rw [if_neg (by omega)]
  have hsub : (List.zipWith Nat.xor pt (ietfKeyStream key nonce pt.length) ++
      polyTag key nonce (List.zipWith Nat.xor pt (ietfKeyStream key nonce pt.length))).length
      - 16 = (List.zipWith Nat.xor pt (ietfKeyStream key nonce pt.length)).length := by
    omega
  rw [hsub, List.take_left, List.drop_left, if_pos rfl, hctlen]
  exact congrArg Except.ok (zipWith_xor_xor pt _ (by simp [ietfKeyStream_length]))

/-!
## The claims

Each claim of the specification is settled by one theorem below; witnesses
instantiate the hypothesised theorems at concrete inputs.
-/

/-- A concrete session state with an established 32-byte shared secret,
used by the witnesses. -/
def readyState : ServiceState :=
  { _ed25519 := some (crypto_sign_keypair (List.replicate 32 1)),
    _x25519 := some (crypto_box_keypair (List.replicate 32 2)),
    _sharedKey := some (List.replicate 32 7),
    _isReady := true }

/-- C1: for every string message `m` and every session whose shared secret
has been established (a 32-byte key stored in `_sharedKey`), `decryptAEAD`
applied to the nonce and ciphertext returned by `encryptAEAD m` (with its
fresh random 12-byte nonce) returns `m` exactly. -/
theorem aead_roundtrip (st : ServiceState) (k nonce m : List Nat)
    (hsk : st._sharedKey = some k) (hkl : k.length = 32) (hn : nonce.length = 12)
    (hm : ∀ c ∈ m, ValidScalar c) :
    ∃ ct, encryptAEAD st m nonce = .ok (nonce, ct) ∧ decryptAEAD st ct nonce = .ok m := by
  refine ⟨List.zipWith Nat.xor (utf8Encode m) (ietfKeyStream k nonce (utf8Encode m).length) ++
    polyTag k nonce (List.zipWith Nat.xor (utf8Encode m)
      (ietfKeyStream k nonce (utf8Encode m).length)), ?_, ?_⟩
  · simp only [encryptAEAD, hsk]
    rw [aead_encrypt_eq _ _ _ hkl hn]
  · simp only [decryptAEAD, hsk]
    rw [aead_decrypt_seal _ _ _ hkl hn]
    dsimp only
    rw [utf8Decode_utf8Encode m hm]

/-- C1 witness: the round trip at a concrete state, nonce and message. -/
theorem aead_roundtrip_witness :
    ∃ ct, encryptAEAD readyState [104, 105] (List.replicate 12 3) = .ok (List.replicate 12 3, ct) ∧
      decryptAEAD readyState ct (List.replicate 12 3) = .ok [104, 105] :=
  aead_roundtrip readyState (List.replicate 32 7) (List.replicate 12 3) [104, 105]
    rfl (by decide) (by decide) (by decide)

/-- C4: for every string message `m` and every session with an established
shared secret, `decryptRaw` applied to the nonce and ciphertext returned by
`encryptRaw m` returns `m` exactly, and
`decryptRawFixedNonce (encryptRawFixedNonce m)` returns `m` exactly (the
ChaCha20 XOR stream is an involution for a fixed key and nonce). -/
theorem raw_roundtrips (st : ServiceState) (k nonce m : List Nat)
    (hsk : st._sharedKey = some k) (hkl : k.length = 32) (hn : nonce.length = 8)
    (hm : ∀ c ∈ m, ValidScalar c) :
    (∃ ct, encryptRaw st m nonce = .ok (nonce, ct) ∧ decryptRaw st ct nonce = .ok m) ∧
    (∃ ct, encryptRawFixedNonce st m = .ok ct ∧ decryptRawFixedNonce st ct = .ok m) := by
  constructor
  · refine ⟨streamXOR k nonce (utf8Encode m), ?_, ?_⟩
    · simp only [encryptRaw, hsk]
    · simp only [decryptRaw, hsk]
      rw [streamXOR_streamXOR, utf8Decode_utf8Encode m hm]
  · refine ⟨streamXOR k _fixedNonce (utf8Encode m), ?_, ?_⟩
    · simp only [encryptRawFixedNonce, hsk]
    · simp only [decryptRawFixedNonce, hsk]
      rw [streamXOR_streamXOR, utf8Decode_utf8Encode m hm]

/-- C4 witness: both raw round trips at a concrete state, nonce and message. -/
theorem raw_roundtrips_witness :
    (∃ ct, encryptRaw readyState [104, 105] (List.replicate 8 5) = .ok (List.replicate 8 5, ct) ∧
      decryptRaw readyState ct (List.replicate 8 5) = .ok [104, 105]) ∧
    (∃ ct, encryptRawFixedNonce readyState [104, 105] = .ok ct ∧
      decryptRawFixedNonce readyState ct = .ok [104, 105]) :=
  raw_roundtrips readyState (List.replicate 32 7) (List.replicate 8 5) [104, 105]
    rfl (by decide) (by decide) (by decide)

/-- C10: the fixed nonce is the constant 8-byte all-zero array, so the
fixed-nonce scheme is the explicit-nonce stream scheme specialised to a zero
nonce: `encryptRawFixedNonce m` produces exactly the ciphertext component of
`encryptRaw` run under the nonce `00×8`, and `decryptRaw` of that ciphertext
under eight zero bytes returns `m`. -/
theorem fixedNonce_refines_zero_nonce (st : ServiceState) (k m : List Nat)
    (hsk : st._sharedKey = some k) (hm : ∀ c ∈ m, ValidScalar c) :
    _fixedNonce = List.replicate 8 0 ∧
    encryptRawFixedNonce st m = (encryptRaw st m (List.replicate 8 0)).map Prod.snd ∧
    ∃ ct, encryptRawFixedNonce st m = .ok ct ∧
      decryptRaw st ct (List.replicate 8 0) = .ok m := by
  refine ⟨rfl, ?_, ?_⟩
  · simp only [encryptRawFixedNonce, encryptRaw, hsk, Except.map, _fixedNonce]
  · refine ⟨streamXOR k _fixedNonce (utf8Encode m), ?_, ?_⟩
    · simp only [encryptRawFixedNonce, hsk]
    · simp only [decryptRaw, hsk]
      rw [show (List.replicate 8 0) = _fixedNonce from rfl,
        streamXOR_streamXOR, utf8Decode_utf8Encode m hm]

/-- C10 witness: the refinement equations at a concrete state and message. -/
theorem fixedNonce_refines_zero_nonce_witness :
    _fixedNonce = List.replicate 8 0 ∧
    encryptRawFixedNonce readyState [104] =
      (encryptRaw readyState [104] (List.replicate 8 0)).map Prod.snd ∧
    ∃ ct, encryptRawFixedNonce readyState [104] = .ok ct ∧
      decryptRaw readyState ct (List.replicate 8 0) = .ok [104] :=
  fixedNonce_refines_zero_nonce readyState (List.replicate 32 7) [104] rfl (by decide)

/-- C3: for every two initialised sessions `A` and `B`,
`A.computeSharedKey(B.x25519PublicKey)` and
`B.computeSharedKey(A.x25519PublicKey)` succeed, return the same 32-byte
value, and store it as the shared secret (Diffie-Hellman commutativity). -/
theorem computeSharedKey_commutes (edA xA edB xB : List Nat) :
    ∃ pubA pubB stA2 stB2 kA kB,
      x25519PublicKey (init initialState edA xA) = .ok pubA ∧
      x25519PublicKey (init initialState edB xB) = .ok pubB ∧
      computeSharedKey (init initialState edA xA) pubB = .ok (stA2, kA) ∧
      computeSharedKey (init initialState edB xB) pubA = .ok (stB2, kB) ∧
      kA = kB ∧ kA.length = 32 ∧
      stA2._sharedKey = some kA ∧ stB2._sharedKey = some kB := by
  have hp : 0 < p25519 := by decide
  have hplt : p25519 < 256 ^ 32 := by decide
  have hmod : ∀ x : Nat, x % p25519 < 256 ^ 32 := fun x => lt_trans (Nat.mod_lt x hp) hplt
  have hbase : leNum basePoint = 9 := by
    rw [basePoint]; exact leNum_leBytes 32 9 (by norm_num)
  have hA : init initialState edA xA =
      ⟨some (crypto_sign_keypair edA), some (crypto_box_keypair xA), none, true⟩ := by
    simp [init, initialState]
  have hB : init initialState edB xB =
      ⟨some (crypto_sign_keypair edB), some (crypto_box_keypair xB), none, true⟩ := by
    simp [init, initialState]
  refine ⟨crypto_scalarmult xA basePoint, crypto_scalarmult xB basePoint,
    ⟨some (crypto_sign_keypair edA), some (crypto_box_keypair xA),
      some (crypto_scalarmult xA (crypto_scalarmult xB basePoint)), true⟩,
    ⟨some (crypto_sign_keypair edB), some (crypto_box_keypair xB),
      some (crypto_scalarmult xB (crypto_scalarmult xA basePoint)), true⟩,
    crypto_scalarmult xA (crypto_scalarmult xB basePoint),
    crypto_scalarmult xB (crypto_scalarmult xA basePoint),
    ?_, ?_, ?_, ?_, ?_, ?_, rfl, rfl⟩
  · rw [hA]; rfl
  · rw [hB]; rfl
  · rw [hA]; rfl
  · rw [hB]; rfl
  · have key : ∀ a b : Nat, (9 ^ b % p25519) ^ a % p25519 = (9 ^ a % p25519) ^ b % p25519 := by
      intro a b
      calc (9 ^ b % p25519) ^ a % p25519
          = (9 ^ b) ^ a % p25519 := (Nat.pow_mod _ _ _).symm
        _ = 9 ^ (b * a) % p25519 := by rw [← pow_mul]
        _ = 9 ^ (a * b) % p25519 := by rw [Nat.mul_comm]
        _ = (9 ^ a) ^ b % p25519 := by rw [pow_mul]
        _ = (9 ^ a % p25519) ^ b % p25519 := Nat.pow_mod _ _ _
    simp only [crypto_scalarmult, hbase]
    rw [leNum_leBytes 32 _ (hmod _), leNum_leBytes 32 _ (hmod _), key]
  · simp [crypto_scalarmult, leBytes_length]

/-- C2: for an initialised session, `verifyDHSignature` accepts the genuine
signature over the genuine DH public key under the genuine signing public
key, returns `false` — without raising — for any mutated signature, message
or key of the correct size, and raises (only) for malformed input sizes. -/
theorem verifyDHSignature_spec (edSeed xSeed : List Nat) (hs : edSeed.length = 32) :
    ∃ sig xpk edpk,
      signDHPublicKey (init initialState edSeed xSeed) = .ok sig ∧
      x25519PublicKey (init initialState edSeed xSeed) = .ok xpk ∧
      ed25519PublicKey (init initialState edSeed xSeed) = .ok edpk ∧
      verifyDHSignature xpk sig edpk = .ok true ∧
      (∀ sig2, sig2.length = 64 → sig2 ≠ sig → verifyDHSignature xpk sig2 edpk = .ok false) ∧
      (∀ msg2, msg2.length = 32 → msg2 ≠ xpk → verifyDHSignature msg2 sig edpk = .ok false) ∧
      (∀ pk2, pk2.length = 32 → pk2 ≠ edpk → verifyDHSignature xpk sig pk2 = .ok false) ∧
      (∀ dh2 sig2 pk2, sig2.length ≠ 64 ∨ pk2.length ≠ 32 →
        verifyDHSignature dh2 sig2 pk2 = .error .malformedInput) := by
  have hI : init initialState edSeed xSeed =
      ⟨some (crypto_sign_keypair edSeed), some (crypto_box_keypair xSeed), none, true⟩ := by
    simp [init, initialState]
  have hdrop : (edSeed ++ edSeed.reverse).drop 32 = edSeed.reverse := by
    rw [← hs]; exact List.drop_left _ _
  have hxpk : (crypto_scalarmult xSeed basePoint).length = 32 := by
    simp [crypto_scalarmult, leBytes_length]
  have hedpk : edSeed.reverse.length = 32 := by simp [hs]
  have hsiglen : (crypto_scalarmult xSeed basePoint ++ edSeed.reverse).length = 64 := by
    simp [hxpk, hedpk]
  refine ⟨crypto_scalarmult xSeed basePoint ++ edSeed.reverse,
    crypto_scalarmult xSeed basePoint, edSeed.reverse, ?_, ?_, ?_, ?_, ?_, ?_, ?_, ?_⟩
  · rw [hI]
    show Except.ok (crypto_sign_detached (crypto_box_keypair xSeed).publicKey
      (crypto_sign_keypair edSeed).privateKey) = _
    simp only [crypto_sign_detached, crypto_sign_keypair, crypto_box_keypair]
    rw [hdrop]
  · rw [hI]; rfl
  · rw [hI]; rfl
  · simp only [verifyDHSignature, crypto_sign_verify_detached]
    rw [if_neg (by omega), if_neg (by omega)]
    simp
  · intro sig2 hlen hne
    simp only [verifyDHSignature, crypto_sign_verify_detached]
    rw [if_neg (by omega), if_neg (by omega)]
    simp only [Except.ok.injEq, decide_eq_false_iff_not]
    exact hne
  · intro msg2 hlen hne
    simp only [verifyDHSignature, crypto_sign_verify_detached]
    rw [if_neg (by omega), if_neg (by omega)]
    simp only [Except.ok.injEq, decide_eq_false_iff_not]
    intro heq
    exact hne ((List.append_inj heq (by omega)).1.symm)
  · intro pk2 hlen hne
    simp only [verifyDHSignature, crypto_sign_verify_detached]
    rw [if_neg (by omega), if_neg (by omega)]
    simp only [Except.ok.injEq, decide_eq_false_iff_not]
    intro heq
    exact hne ((List.append_inj heq rfl).2.symm)
  · intro dh2 sig2 pk2 h
    simp only [verifyDHSignature, crypto_sign_verify_detached]
    rcases h with h | h
    · rw [if_pos h]
    · by_cases h64 : sig2.length = 64
      · rw [if_neg (by omega), if_pos h]
      · rw [if_pos h64]

/-- C2 witness: the signature behaviour at a concrete 32-byte seed. -/
theorem verifyDHSignature_spec_witness :
    ∃ sig xpk edpk,
      signDHPublicKey (init initialState (List.replicate 32 1) (List.replicate 32 2)) = .ok sig ∧
      x25519PublicKey (init initialState (List.replicate 32 1) (List.replicate 32 2)) = .ok xpk ∧
      ed25519PublicKey (init initialState (List.replicate 32 1) (List.replicate 32 2)) = .ok edpk ∧
      verifyDHSignature xpk sig edpk = .ok true ∧
      (∀ sig2, sig2.length = 64 → sig2 ≠ sig → verifyDHSignature xpk sig2 edpk = .ok false) ∧
      (∀ msg2, msg2.length = 32 → msg2 ≠ xpk → verifyDHSignature msg2 sig edpk = .ok false) ∧
      (∀ pk2, pk2.length = 32 → pk2 ≠ edpk → verifyDHSignature xpk sig pk2 = .ok false) ∧
      (∀ dh2 sig2 pk2, sig2.length ≠ 64 ∨ pk2.length ≠ 32 →
        verifyDHSignature dh2 sig2 pk2 = .error .malformedInput) :=
  verifyDHSignature_spec (List.replicate 32 1) (List.replicate 32 2) (by decide)

/-- C5: AEAD decryption of a ciphertext whose tag does not verify fails with
the authentication-failure error, which is a variant distinct from the
uninitialised, no-shared-secret and malformed-input failures, and is never a
successful decryption. -/
theorem decryptAEAD_authFailure_distinct (st : ServiceState) (k nonce ct : List Nat)
    (hsk : st._sharedKey = some k) (hkl : k.length = 32) (hn : nonce.length = 12)
    (hct : 16 ≤ ct.length)
    (hbad : ct.drop (ct.length - 16) ≠ polyTag k nonce (ct.take (ct.length - 16))) :
    decryptAEAD st ct nonce = .error .authFailure ∧
    (ChatError.authFailure ≠ ChatError.uninitialized ∧
      ChatError.authFailure ≠ ChatError.noSharedSecret ∧
      ChatError.authFailure ≠ ChatError.malformedInput) ∧
    ∀ s, decryptAEAD st ct nonce ≠ .ok s := by
  have hd : crypto_aead_chacha20poly1305_ietf_decrypt ct nonce k = .error .authFailure := by
    simp only [crypto_aead_chacha20poly1305_ietf_decrypt]
    rw [if_neg (by simp [hkl, hn]), if_neg (by omega), if_neg hbad]
  refine ⟨?_, ⟨by decide, by decide, by decide⟩, ?_⟩
  · simp only [decryptAEAD, hsk]
    rw [hd]
  · intro s
    simp only [decryptAEAD, hsk]
    rw [hd]
    simp

/-- C5 witness: a concrete tampered ciphertext — the genuine authentication
tag of the empty ciphertext under the ready state's key, with its first byte
changed — fails with the authentication error and with no other outcome. -/
theorem decryptAEAD_authFailure_distinct_witness :
    decryptAEAD readyState
      (((polyTag (List.replicate 32 7) (List.replicate 12 3) []).headD 0 + 1) % 256 ::
        (polyTag (List.replicate 32 7) (List.replicate 12 3) []).tail)
      (List.replicate 12 3) = .error .authFailure ∧
    (ChatError.authFailure ≠ ChatError.uninitialized ∧
      ChatError.authFailure ≠ ChatError.noSharedSecret ∧
      ChatError.authFailure ≠ ChatError.malformedInput) ∧
    ∀ s, decryptAEAD readyState
      (((polyTag (List.replicate 32 7) (List.replicate 12 3) []).headD 0 + 1) % 256 ::
        (polyTag (List.replicate 32 7) (List.replicate 12 3) []).tail)
      (List.replicate 12 3) ≠ .ok s := by
  have hlen : (polyTag (List.replicate 32 7) (List.replicate 12 3) []).length = 16 :=
    polyTag_length _ _ _
  obtain ⟨h, t, htag⟩ :
      ∃ h t, polyTag (List.replicate 32 7) (List.replicate 12 3) [] = h :: t := by
    cases heq : polyTag (List.replicate 32 7) (List.replicate 12 3) [] with
    | nil => rw [heq] at hlen; simp at hlen
    | cons h t => exact ⟨h, t, rfl⟩
  have hhead : h < 256 :=
    leBytes_mem_lt 16 _ h (by rw [polyTag] at htag; exact htag ▸ List.mem_cons_self h t)
  have htlen : t.length = 15 := by rw [htag] at hlen; simpa using hlen
  apply decryptAEAD_authFailure_distinct readyState (List.replicate 32 7) (List.replicate 12 3)
    _ rfl (by decide) (by decide)
  · rw [htag]
    simp
    omega
  · rw [htag]
    simp only [List.headD_cons, List.tail_cons, List.length_cons, htlen]
    have hz : 15 + 1 - 16 = 0 := by omega
    rw [hz, List.drop_zero, List.take_zero, htag]
    simp only [ne_eq, List.cons.injEq, not_and]
    intro hc
    omega

/-- C6: every instance-scoped encryption or decryption operation fails with
the no-shared-secret error whenever the session has no stored shared secret,
for every input message, ciphertext or nonce. -/
theorem noSharedSecret_gating (st : ServiceState) (h : st._sharedKey = none) :
    (∀ m n, encryptAEAD st m n = .error .noSharedSecret) ∧
    (∀ c n, decryptAEAD st c n = .error .noSharedSecret) ∧
    (∀ m n, encryptRaw st m n = .error .noSharedSecret) ∧
    (∀ c n, decryptRaw st c n = .error .noSharedSecret) ∧
    (∀ m, encryptRawFixedNonce st m = .error .noSharedSecret) ∧
    (∀ c, decryptRawFixedNonce st c = .error .noSharedSecret) := by
  refine ⟨fun m n => ?_, fun c n => ?_, fun m n => ?_, fun c n => ?_, fun m => ?_,
    fun c => ?_⟩ <;>
    simp [encryptAEAD, decryptAEAD, encryptRaw, decryptRaw, encryptRawFixedNonce,
      decryptRawFixedNonce, h]

/-- C6 witness: all six operations on the fresh constructor state. -/
theorem noSharedSecret_gating_witness :
    encryptAEAD initialState [104] (List.replicate 12 0) = .error .noSharedSecret ∧
    decryptAEAD initialState [0] [0] = .error .noSharedSecret ∧
    encryptRaw initialState [104] [0] = .error .noSharedSecret ∧
    decryptRaw initialState [0] [0] = .error .noSharedSecret ∧
    encryptRawFixedNonce initialState [104] = .error .noSharedSecret ∧
    decryptRawFixedNonce initialState [0] = .error .noSharedSecret := by
  obtain ⟨h1, h2, h3, h4, h5, h6⟩ := noSharedSecret_gating initialState rfl
  exact ⟨h1 _ _, h2 _ _, h3 _ _, h4 _ _, h5 _, h6 _⟩

/-- C7: every operation touching the signing or exchange key material —
the two public-key accessors, `signDHPublicKey`, `computeSharedKey` and
`exportPublicIdentity` — fails with the uninitialised error on a session
whose key pairs were never generated. -/
theorem uninitialized_gating (st : ServiceState)
    (hed : st._ed25519 = none) (hx : st._x25519 = none) :
    ed25519PublicKey st = .error .uninitialized ∧
    x25519PublicKey st = .error .uninitialized ∧
    signDHPublicKey st = .error .uninitialized ∧
    (∀ peer, computeSharedKey st peer = .error .uninitialized) ∧
    exportPublicIdentity st = .error .uninitialized := by
  refine ⟨?_, ?_, ?_, fun peer => ?_, ?_⟩ <;>
    simp [ed25519PublicKey, x25519PublicKey, signDHPublicKey, computeSharedKey,
      exportPublicIdentity, hed, hx]

/-- C7 witness: all five operations on the fresh constructor state. -/
theorem uninitialized_gating_witness :
    ed25519PublicKey initialState = .error .uninitialized ∧
    x25519PublicKey initialState = .error .uninitialized ∧
    signDHPublicKey initialState = .error .uninitialized ∧
    computeSharedKey initialState (List.replicate 32 0) = .error .uninitialized ∧
    exportPublicIdentity initialState = .error .uninitialized := by
  obtain ⟨h1, h2, h3, h4, h5⟩ := uninitialized_gating initialState rfl rfl
  exact ⟨h1, h2, h3, h4 _, h5⟩

/-- C8: `init` is idempotent — the first call sets the readiness flag, and
any later call is a no-op leaving the key pairs, shared secret and readiness
flag exactly as after the first call. -/
theorem init_idempotent (st : ServiceState) (a b c d : List Nat) :
    (init st a b)._isReady = true ∧ init (init st a b) c d = init st a b := by
  by_cases h : st._isReady <;> simp [init, h]

theorem twoStepInduction {α : Type} {P : List α → Prop} (h0 : P []) (h1 : ∀ a, P [a])
    (h2 : ∀ a b l, P l → P (a :: b :: l)) : ∀ l, P l := by
  have key : ∀ n (l : List α), l.length ≤ n → P l := by
    intro n
    induction n with
    | zero =>
      intro l hl
      cases l with
      | nil => exact h0
      | cons a t => simp at hl
    | succ n ih =>
      intro l hl
      match l with
      | [] => exact h0
      | [a] => exact h1 a
      | a :: b :: t =>
        refine h2 a b t (ih t ?_)
        simp only [List.length_cons] at hl
        omega
  exact fun l => key l.length l le_rfl

/-- C9: `hexToUint8Array` applied to a malformed hexadecimal string — odd
length or containing a non-hex character — fails explicitly with an error;
and whenever it succeeds the output covers the whole input (two hex digits
per byte), so it never silently truncates. -/
theorem hexToUint8Array_malformed :
    (∀ s : List Char, (s.length % 2 = 1 ∨ ∃ c ∈ s, hexDigitVal c = none) →
      hexToUint8Array s = .error .malformedInput) ∧
    (∀ (s : List Char) (bs : List Nat), hexToUint8Array s = .ok bs →
      s.length = 2 * bs.length) := by
  constructor
  · refine twoStepInduction ?_ ?_ ?_
    · intro hcond
      rcases hcond with hodd | ⟨c, hc, _⟩
      · simp at hodd
      · simp at hc
    · intro a _
      rfl
    · intro a b l ih hcond
      rcases ha : hexDigitVal a with _ | va
      · simp [hexToUint8Array, ha]
      · rcases hb : hexDigitVal b with _ | vb
        · simp [hexToUint8Array, ha, hb]
        · have hl : l.length % 2 = 1 ∨ ∃ c ∈ l, hexDigitVal c = none := by
            rcases hcond with hodd | ⟨c, hc, hcn⟩
            · left
              simp only [List.length_cons] at hodd
              omega
            · right
              simp only [List.mem_cons] at hc
              rcases hc with rfl | rfl | hc
              · exact absurd hcn (by simp [ha])
              · exact absurd hcn (by simp [hb])
              · exact ⟨c, hc, hcn⟩
          simp [hexToUint8Array, ha, hb, ih hl, Except.map]
  · refine twoStepInduction ?_ ?_ ?_
    · intro bs hb
      simp only [hexToUint8Array, Except.ok.injEq] at hb
      simp [← hb]
    · intro a bs hb
      simp [hexToUint8Array] at hb
    · intro a b l ih bs hb
      rcases ha : hexDigitVal a with _ | va
      · simp [hexToUint8Array, ha] at hb
      · rcases hbd : hexDigitVal b with _ | vb
        · simp [hexToUint8Array, ha, hbd] at hb
        · simp only [hexToUint8Array, ha, hbd] at hb
          cases hrec : hexToUint8Array l with
          | error e => rw [hrec] at hb; simp [Except.map] at hb
          | ok t =>
            rw [hrec] at hb
            simp only [Except.map, Except.ok.injEq] at hb
            rw [← hb]
            simp only [List.length_cons]
            rw [ih t hrec]
            omega

/-- C9 witness: an odd-length input and an input with a non-hex character
both fail; a well-formed input's length is twice its output's length. -/
theorem hexToUint8Array_malformed_witness :
    hexToUint8Array ['a', 'b', 'c'] = .error .malformedInput ∧
    hexToUint8Array ['0', 'g'] = .error .malformedInput ∧
    (['f', 'f'] : List Char).length = 2 * ([255] : List Nat).length :=
  ⟨hexToUint8Array_malformed.1 ['a', 'b', 'c'] (by simp),
   hexToUint8Array_malformed.1 ['0', 'g'] (by right; exact ⟨'g', by simp, by decide⟩),
   hexToUint8Array_malformed.2 ['f', 'f'] [255] (by rfl)⟩

end SecureChat
